import Mathlib

/-!
Verification of the parsing core of `llama-tool-parser-native`
(`src/backend/src/nom_parser.rs`, `src/backend/src/logos_parser.rs`,
`src/backend/src/lib.rs`), a shallow embedding in Lean 4.

Modelling conventions, stated once here:

* Rust `&str` slices are modelled as `List Char`; a parser of type
  `IResult<&str, T>` becomes `List Char → Option (List Char × T)` where
  `some (rest, v)` is `Ok((rest, v))` and `none` is `Err(_)`.  The nom
  parsers in this file are built from `complete`-mode combinators, which
  never produce `Err::Incomplete`, so a single failure case is faithful.
  Indices into the input count characters; the Rust code indexes bytes but
  every index it produces lies on a character boundary (pattern searches
  and parser rests), so the two views are isomorphic.
* Rust `f64` values produced by the number grammar are modelled as exact
  rationals (`Rat`): the grammar only yields finite decimal literals, and
  no claim in this development depends on IEEE-754 rounding.
* `HashMap<String, Value>` compared with `==` (structural map equality) is
  modelled as an association list kept sorted by key with unique keys, so
  that Lean equality of the representation coincides with equality of the
  maps.  `insert` replaces the value of an existing key, as in Rust.
* The Rust enum `Value` has a variant `FunctionCall(FunctionCall)` whose
  payload struct is mutually recursive with `Value`; the Lean `Value`
  inlines the struct's two fields into the variant, and the standalone
  `FunctionCall` structure mirrors the Rust struct.  The two encodings are
  isomorphic.
-/

/-- Rust `Value` from `src/backend/src/lib.rs`: the simplified Python AST.
`number` carries the exact rational decoded from the literal (see the file
comment), `functionCall` inlines the fields of the `FunctionCall` struct. -/
inductive Value where
  | bool (b : Bool)
  | number (q : Rat)
  | str (s : List Char)
  | identifier (s : List Char)
  | empty
  | list (l : List Value)
  | functionCall (name : List Char) (kwargs : List (List Char × Value))

/-- Rust `FunctionCall` from `src/backend/src/lib.rs`: a call name plus its
keyword-argument map (kwargs held as the canonical sorted association list). -/
structure FunctionCall where
  name : List Char
  kwargs : List (List Char × Value)

/-- Convert the inlined `Value.functionCall` payload to a `FunctionCall`. -/
def FunctionCall.ofValueFields (name : List Char) (kwargs : List (List Char × Value)) :
    FunctionCall := ⟨name, kwargs⟩

mutual
/-- Structural equality of values, mirroring the derived `PartialEq` on the
Rust `Value` (on `Number` it compares the modelled rationals). -/
def Value.beq : Value → Value → Bool
  | .bool a, .bool b => a == b
  | .number a, .number b => a == b
  | .str a, .str b => a == b
  | .identifier a, .identifier b => a == b
  | .empty, .empty => true
  | .list a, .list b => beqValueList a b
  | .functionCall n1 k1, .functionCall n2 k2 => n1 == n2 && beqKwargs k1 k2
  | _, _ => false
/-- Elementwise equality of value lists (Rust `Vec<Value>` equality). -/
def beqValueList : List Value → List Value → Bool
  | [], [] => true
  | a :: as, b :: bs => Value.beq a b && beqValueList as bs
  | _, _ => false
/-- Equality of kwargs maps: on the canonical sorted representation the Rust
`HashMap` equality is elementwise list equality. -/
def beqKwargs : List (List Char × Value) → List (List Char × Value) → Bool
  | [], [] => true
  | (k1, v1) :: r1, (k2, v2) :: r2 => k1 == k2 && Value.beq v1 v2 && beqKwargs r1 r2
  | _, _ => false
end

/-- Structural equality of calls: the derived `PartialEq` on `FunctionCall`. -/
def FunctionCall.beq (a b : FunctionCall) : Bool :=
  a.name == b.name && beqKwargs a.kwargs b.kwargs

/-- Strict lexicographic order on keys, used only to keep the kwargs
association list canonical (the Rust `HashMap` is unordered; any fixed order
gives a faithful model of map equality). -/
def keyLt : List Char → List Char → Bool
  | [], [] => false
  | [], _ :: _ => true
  | _ :: _, [] => false
  | c :: as, d :: bs => if c = d then keyLt as bs else decide (c < d)

/-- Rust `HashMap::insert`: replace the value of an existing key, otherwise
add the pair, keeping the canonical key order. -/
def insertKwarg : List (List Char × Value) → List Char → Value → List (List Char × Value)
  | [], k, v => [(k, v)]
  | (k', v') :: rest, k, v =>
    if k = k' then (k, v) :: rest
    else if keyLt k k' then (k, v) :: (k', v') :: rest
    else (k', v') :: insertKwarg rest k v

/-- Rust `pairs.into_iter().collect::<HashMap<_, _>>()`: fold the parsed
pairs into the map in order, later duplicate keys overwriting earlier ones. -/
def kwargsOfPairs (ps : List (List Char × Value)) : List (List Char × Value) :=
  ps.foldl (fun m p => insertKwarg m p.1 p.2) []

/-- Input to a nom parser: the unconsumed text. -/
abbrev Input := List Char

/-- Result of a nom parser: `some (rest, value)` for `Ok`, `none` for `Err`. -/
abbrev NomResult (α : Type) := Option (Input × α)

/-- Characters matched by nom `multispace0`: space, tab, carriage return,
line feed. -/
def isNomSpace (c : Char) : Bool := c = ' ' || c = '\t' || c = '\r' || c = '\n'

/-- nom `multispace0` as a plain function on the input (it never fails and
its output is discarded at every use site in the source). -/
def ms0 (l : Input) : Input := l.dropWhile isNomSpace

/-- nom `char(c)`: consume exactly the character `c`. -/
def pchar (c : Char) : Input → NomResult Char
  | x :: rest => if x = c then some (rest, c) else none
  | [] => none

/-- nom `tag(t)`: consume exactly the literal `t`. -/
def ptag (t : List Char) (l : Input) : NomResult (List Char) :=
  if t.isPrefixOf l then some (l.drop t.length, t) else none

/-- nom `one_of(s)`: consume one character that occurs in `s`. -/
def pone_of (s : List Char) : Input → NomResult Char
  | c :: rest => if s.contains c then some (rest, c) else none
  | [] => none

/-- nom `digit1`: one or more ASCII digits. -/
def digit1 (l : Input) : NomResult (List Char) :=
  let ds := l.takeWhile Char.isDigit
  if ds.isEmpty then none else some (l.dropWhile Char.isDigit, ds)

/-- nom `alt((p, q))` for two alternatives: first success wins. -/
def palt2 {α : Type} (p q : Input → NomResult α) (l : Input) : NomResult α :=
  match p l with
  | some r => some r
  | none => q l

/-- nom `map(p, f)`. -/
def pmap {α β : Type} (p : Input → NomResult α) (f : α → β) (l : Input) : NomResult β :=
  match p l with
  | some (rest, a) => some (rest, f a)
  | none => none

/-- Rust `parse_bool`: `alt((value(true, tag("True")), value(false,
tag("False"))))`. -/
def parse_bool : Input → NomResult Bool :=
  palt2 (pmap (ptag ("True".toList)) (fun _ => true))
        (pmap (ptag ("False".toList)) (fun _ => false))

/-- Rust `unescape_string`: decode backslash escapes; `\\ \" \' \n \r \t`
map to their escaped meaning, any other escaped character is kept as itself,
and a trailing lone backslash is kept literally. -/
def unescape_string : List Char → List Char
  | [] => []
  | '\\' :: rest =>
    match rest with
    | [] => ['\\']
    | c :: rest' =>
      (match c with
       | '\\' => '\\'
       | '"' => '"'
       | '\'' => '\''
       | 'n' => '\n'
       | 'r' => '\r'
       | 't' => '\t'
       | other => other) :: unescape_string rest'
  | c :: rest => c :: unescape_string rest

/-- nom `escaped(take_while(p), control, one_of(esc))` as used in
`parse_string`.  In nom 7 the `escaped` loop reaches its control-character
branch only when the `normal` parser returns `Err`; `take_while` never
fails (it succeeds consuming the longest, possibly empty, prefix satisfying
`p`), so `escaped` returns as soon as `take_while` makes no progress — the
nom source comments this branch "return if we consumed everything or if the
normal parser does not consume anything".  Hence the combinator consumes
exactly the longest prefix satisfying `p` and the escape branch (with its
`one_of` set of escapable characters) is dead code; in particular a
backslash in a string body is never consumed. -/
def escaped_take_while (p : Char → Bool) (l : Input) : NomResult (List Char) :=
  some (l.dropWhile p, l.takeWhile p)

/-- One branch of Rust `parse_string`: `delimited(char(q), escaped(take_while
(not q, not backslash), backslash, one_of(...)), char(q))` for the quote
character `q` (the escapable set is unreachable, see `escaped_take_while`). -/
def parse_string_quoted (q : Char) (l : Input) : NomResult (List Char) :=
  match pchar q l with
  | none => none
  | some (l1, _) =>
    match escaped_take_while (fun c => !(c = q || c = '\\')) l1 with
    | none => none
    | some (l2, body) =>
      match pchar q l2 with
      | none => none
      | some (l3, _) => some (l3, body)

/-- Rust `parse_string`: double-quoted branch first, then single-quoted,
each mapped through `unescape_string`. -/
def parse_string : Input → NomResult (List Char) :=
  pmap (palt2 (parse_string_quoted '"') (parse_string_quoted '\'')) unescape_string

/-- Value of the digit string read in base 10. -/
def digitsToNat (ds : List Char) : Nat :=
  ds.foldl (fun acc c => acc * 10 + (c.toNat - '0'.toNat)) 0

/-- Exact rational value of a decimal literal broken into sign, integer
digits, fraction digits and optional exponent (sign, digits) — the value
`f64::from_str`/logos' `parse::<f64>()` computes, without IEEE rounding. -/
def decimalRat (neg : Bool) (intDs fracDs : List Char) (ex : Option (Bool × List Char)) : Rat :=
  let mantissa : Rat :=
    (digitsToNat intDs : Rat) + (digitsToNat fracDs : Rat) / ((10 : Rat) ^ fracDs.length)
  let signed : Rat := if neg then -mantissa else mantissa
  match ex with
  | some (negExp, ds) =>
    if negExp then signed / ((10 : Rat) ^ digitsToNat ds)
    else signed * ((10 : Rat) ^ digitsToNat ds)
  | none => signed

/-- The optional fraction part `(\\.\\d+)?` of the logos number regex:
digits matched plus the rest (no consumption when the dot is not followed
by a digit). -/
def lexFracPart (l : Input) : List Char × Input :=
  match l with
  | '.' :: u =>
    let ds := u.takeWhile Char.isDigit
    if ds.isEmpty then ([], l) else (ds, u.dropWhile Char.isDigit)
  | _ => ([], l)

/-- The optional exponent part `([eE][+-]?\\d+)?` of the logos number
regex: sign and digits matched plus the rest. -/
def lexExpPart (l : Input) : Option (Bool × List Char) × Input :=
  match l with
  | e :: u =>
    if e = 'e' || e = 'E' then
      let su : Bool × Input := match u with
        | '+' :: w => (false, w)
        | '-' :: w => (true, w)
        | _ => (false, u)
      let ds := su.2.takeWhile Char.isDigit
      if ds.isEmpty then (none, l)
      else (some (su.1, ds), su.2.dropWhile Char.isDigit)
    else (none, l)
  | [] => (none, l)

/-- Rust `parse_number`: `recognize(tuple((opt(char('-')), digit1,
opt(tuple((char('.'), digit1))), opt(tuple((one_of("eE"), opt(one_of("+-")),
digit1))))))` fed to `f64::from_str`.  The optional fraction and exponent
have exactly the shape of `lexFracPart` and `lexExpPart`; the recognized
components are decoded to the exact rational value of the decimal literal
(`from_str` always succeeds on this shape; IEEE rounding not modelled);
the next definition is its `opt(char('-'))` sign prefix, shared with the
logos number rule. -/
def optNeg (l : Input) : Bool × Input :=
  match l with
  | '-' :: t => (true, t)
  | _ => (false, l)

/-- Rust `parse_number` body, continued: see the doc comment above. -/
def parse_number (l : Input) : NomResult Rat :=
  let sgn := optNeg l
  match digit1 sgn.2 with
  | none => none
  | some (l2, intDs) =>
    let fr := lexFracPart l2
    let ex := lexExpPart fr.2
    some (ex.2, decimalRat sgn.1 intDs fr.1 ex.1)

/-- Leading characters accepted by Rust `parse_identifier`'s `one_of`. -/
def identHeadChars : List Char :=
  "abcdefghijklmnopqrstuvwxyzABCDEFGHIJKLMNOPQRSTUVWXYZ_".toList

/-- Continuation test of Rust `parse_identifier`: `c.is_alphanumeric() ||
c == '_'` (Rust's Unicode `is_alphanumeric` approximated by the ASCII test;
every input considered in this development is ASCII). -/
def isIdentCont (c : Char) : Bool := c.isAlphanum || c = '_'

/-- Rust `parse_identifier`: `recognize(pair(one_of(letters and underscore),
take_while(is_alphanumeric or underscore)))` returned as a string. -/
def parse_identifier (l : Input) : NomResult (List Char) :=
  match pone_of identHeadChars l with
  | none => none
  | some (rest, c) =>
    some (rest.dropWhile isIdentCont, c :: rest.takeWhile isIdentCont)

/-- Literal `"None"`. -/
def noneTokChars : List Char := "None".toList

mutual
/-- Rust `parse_value`: `preceded(multispace0, alt((bool, string, number,
tag("None"), parse_list, parse_dict, identifier)))`, the alternatives tried
in exactly this order.  The `Nat` argument is recursion fuel shared by the
whole mutually recursive grammar, decremented on every call so that the
mutual recursion is structural; along any call path at most four calls
occur per character of input consumed (a bracket descent costs the chain
value → list → items → value, a separator a similar chain), so the
entry-point fuel `4 * length + 8` of `parse_value` is never exhausted and
every `0` case is dead code. -/
def parseValueF : Nat → Input → NomResult Value
  | 0, _ => none
  | n + 1, l =>
    let l1 := ms0 l
    match pmap parse_bool Value.bool l1 with
    | some r => some r
    | none =>
      match pmap parse_string Value.str l1 with
      | some r => some r
      | none =>
        match pmap parse_number Value.number l1 with
        | some r => some r
        | none =>
          match pmap (ptag noneTokChars) (fun _ => Value.empty) l1 with
          | some r => some r
          | none =>
            match parseListF n l1 with
            | some r => some r
            | none =>
              match parseDictF n l1 with
              | some r => some r
              | none => pmap parse_identifier Value.identifier l1

/-- Rust `parse_list`: `delimited(char('['), separated_list0(preceded(
multispace0, char(','))), preceded(multispace0, parse_value)), preceded(
multispace0, char(']')))` mapped to `Value::List`. -/
def parseListF : Nat → Input → NomResult Value
  | 0, _ => none
  | n + 1, l =>
    match pchar '[' l with
    | none => none
    | some (l1, _) =>
      match parseValueItemsF n l1 with
      | none => none
      | some (l2, vs) =>
        match pchar ']' (ms0 l2) with
        | none => none
        | some (l3, _) => some (l3, Value.list vs)

/-- nom `separated_list0(preceded(multispace0, char(',')), preceded(
multispace0, parse_value))`: try the first element; on failure succeed with
the empty list and no consumption, otherwise enter the separator loop. -/
def parseValueItemsF : Nat → Input → NomResult (List Value)
  | 0, _ => none
  | n + 1, i =>
    match parseValueF n (ms0 i) with
    | none => some (i, [])
    | some (i1, v) =>
      match parseValueItemsLoopF n i1 with
      | none => none
      | some (i2, vs) => some (i2, v :: vs)

/-- The loop of nom `separated_list0` specialised to value elements: parse
separator then element until one fails, returning the rest from before the
failed separator.  The equality guard is nom's infinite-loop check (the
separator always consumes the comma, so it never fires). -/
def parseValueItemsLoopF : Nat → Input → NomResult (List Value)
  | 0, _ => none
  | n + 1, i =>
    match pchar ',' (ms0 i) with
    | none => some (i, [])
    | some (i1, _) =>
      if i1.length = i.length then none
      else
        match parseValueF n (ms0 i1) with
        | none => some (i, [])
        | some (i2, v) =>
          match parseValueItemsLoopF n i2 with
          | none => none
          | some (i3, vs) => some (i3, v :: vs)

/-- One dict entry of Rust `parse_dict`: `preceded(multispace0,
separated_pair(parse_string, preceded(multispace0, char(':')),
parse_value))` — a quoted-string key, a colon, a value. -/
def parseDictEntryF : Nat → Input → NomResult (List Char × Value)
  | 0, _ => none
  | n + 1, i =>
    match parse_string (ms0 i) with
    | none => none
    | some (i1, key) =>
      match pchar ':' (ms0 i1) with
      | none => none
      | some (i2, _) =>
        match parseValueF n i2 with
        | none => none
        | some (i3, v) => some (i3, (key, v))

/-- nom `separated_list0` for dict entries (first element, then the loop). -/
def parseDictItemsF : Nat → Input → NomResult (List (List Char × Value))
  | 0, _ => none
  | n + 1, i =>
    match parseDictEntryF n i with
    | none => some (i, [])
    | some (i1, kv) =>
      match parseDictItemsLoopF n i1 with
      | none => none
      | some (i2, kvs) => some (i2, kv :: kvs)

/-- The `separated_list0` loop for dict entries. -/
def parseDictItemsLoopF : Nat → Input → NomResult (List (List Char × Value))
  | 0, _ => none
  | n + 1, i =>
    match pchar ',' (ms0 i) with
    | none => some (i, [])
    | some (i1, _) =>
      if i1.length = i.length then none
      else
        match parseDictEntryF n i1 with
        | none => some (i, [])
        | some (i2, kv) =>
          match parseDictItemsLoopF n i2 with
          | none => none
          | some (i3, kvs) => some (i3, kv :: kvs)

/-- Rust `parse_dict`: `delimited(char(...), entries, preceded(multispace0,
char(...)))` over curly braces, the parsed `(key, value)` entries flattened
into a `Value::List` holding `String(key)` then the value, in source order. -/
def parseDictF : Nat → Input → NomResult Value
  | 0, _ => none
  | n + 1, l =>
    match pchar (Char.ofNat 123) l with
    | none => none
    | some (l1, _) =>
      match parseDictItemsF n l1 with
      | none => none
      | some (l2, entries) =>
        match pchar (Char.ofNat 125) (ms0 l2) with
        | none => none
        | some (l3, _) =>
          some (l3, Value.list (entries.foldr
            (fun kv acc => Value.str kv.1 :: kv.2 :: acc) []))
end

/-- Rust `parse_value` entry point; the fuel `4 * length + 8` exceeds the
number of grammar calls any parse of `l` can make (see `parseValueF`). -/
def parse_value (l : Input) : NomResult Value := parseValueF (4 * l.length + 8) l

/-- The loop of nom `separated_list0(sep, elt)` for already-defined element
parsers: parse separator then element until one fails, returning the rest
from before the failed separator; the equality guard is nom's infinite-loop
check.  The fuel counts loop iterations; every iteration consumes at least
one character through `sep`, so the `length + 1` fuel passed by
`psepList0` is never exhausted and the `0` case is dead code. -/
def psepList0Loop {β : Type} (sep : Input → NomResult Char) (elt : Input → NomResult β) :
    Nat → Input → NomResult (List β)
  | 0, _ => none
  | k + 1, i =>
    match sep i with
    | none => some (i, [])
    | some (i1, _) =>
      if i1.length = i.length then none
      else
        match elt i1 with
        | none => some (i, [])
        | some (i2, v) =>
          match psepList0Loop sep elt k i2 with
          | none => none
          | some (i3, vs) => some (i3, v :: vs)

/-- nom `separated_list0(sep, elt)`: empty list on first-element failure,
otherwise the element followed by the separator loop. -/
def psepList0 {β : Type} (sep : Input → NomResult Char) (elt : Input → NomResult β)
    (i : Input) : NomResult (List β) :=
  match elt i with
  | none => some (i, [])
  | some (i1, v) =>
    match psepList0Loop sep elt (i1.length + 1) i1 with
    | none => none
    | some (i2, vs) => some (i2, v :: vs)

/-- The separator `preceded(multispace0, char(','))` used by every
`separated_list0` in the function-call grammar. -/
def sepComma (i : Input) : NomResult Char := pchar ',' (ms0 i)

/-- Rust `parse_kwarg`: `separated_pair(parse_identifier, preceded(
multispace0, char('=')), preceded(multispace0, parse_value))`. -/
def parse_kwarg (l : Input) : NomResult (List Char × Value) :=
  match parse_identifier l with
  | none => none
  | some (l1, key) =>
    match pchar '=' (ms0 l1) with
    | none => none
    | some (l2, _) =>
      match parse_value (ms0 l2) with
      | none => none
      | some (l3, v) => some (l3, (key, v))

/-- Rust `parse_kwargs`: `delimited(char('('), separated_list0(preceded(
multispace0, char(',')), preceded(multispace0, parse_kwarg)), preceded(
multispace0, char(')')))`, the pairs collected into the kwargs map (later
duplicate keys overwrite earlier ones). -/
def parse_kwargs (l : Input) : NomResult (List (List Char × Value)) :=
  match pchar '(' l with
  | none => none
  | some (l1, _) =>
    match psepList0 sepComma (fun i => parse_kwarg (ms0 i)) l1 with
    | none => none
    | some (l2, pairs) =>
      match pchar ')' (ms0 l2) with
      | none => none
      | some (l3, _) => some (l3, kwargsOfPairs pairs)

/-- Rust `parse_function_call`: `pair(parse_identifier, parse_kwargs)` (no
whitespace allowed between the name and the opening parenthesis). -/
def parse_function_call (l : Input) : NomResult FunctionCall :=
  match parse_identifier l with
  | none => none
  | some (l1, name) =>
    match parse_kwargs l1 with
    | none => none
    | some (l2, kwargs) => some (l2, ⟨name, kwargs⟩)

/-- Rust `parse_function_list`: `delimited(char('['), separated_list0(
preceded(multispace0, char(',')), preceded(multispace0,
parse_function_call)), preceded(multispace0, char(']')))`. -/
def parse_function_list (l : Input) : NomResult (List FunctionCall) :=
  match pchar '[' l with
  | none => none
  | some (l1, _) =>
    match psepList0 sepComma (fun i => parse_function_call (ms0 i)) l1 with
    | none => none
    | some (l2, fs) =>
      match pchar ']' (ms0 l2) with
      | none => none
      | some (l3, _) => some (l3, fs)

/-- The literal start sentinel. -/
def pythonStartTag : List Char := "<|python_start|>".toList

/-- The literal end sentinel. -/
def pythonEndTag : List Char := "<|python_end|>".toList

/-- Rust `parse_python_block`: `delimited(tag("<|python_start|>"),
parse_function_list, tag("<|python_end|>"))`. -/
def parse_python_block (l : Input) : NomResult (List FunctionCall) :=
  match ptag pythonStartTag l with
  | none => none
  | some (l1, _) =>
    match parse_function_list l1 with
    | none => none
    | some (l2, fs) =>
      match ptag pythonEndTag l2 with
      | none => none
      | some (l3, _) => some (l3, fs)

/-- Rust `parse_python_nom`: `alt((parse_python_block,
parse_function_list))` — the marker-aware top-level parser. -/
def parse_python_nom : Input → NomResult (List FunctionCall) :=
  palt2 parse_python_block parse_function_list

/-- First index at which `pat` occurs as a contiguous run in `l`
(Rust `str::find(pattern)` on character indices). -/
def findSubIdx (pat : List Char) : Input → Option Nat
  | [] => if pat.isEmpty then some 0 else none
  | c :: rest =>
    if pat.isPrefixOf (c :: rest) then some 0
    else (findSubIdx pat rest).map (· + 1)

/-- Rust `find_next_pattern_start`: the earliest index of the start marker
or of an opening bracket, if either occurs. -/
def find_next_pattern_start (l : Input) : Option Nat :=
  match findSubIdx pythonStartTag l, findSubIdx ['['] l with
  | some p, some b => some (min p b)
  | some p, none => some p
  | none, some b => some b
  | none, none => none

/-- The `while` loop of Rust `parse_python_with_surrounding_text`, one fuel
unit per iteration.  Each iteration either stops or strictly shrinks
`remaining` (a successful `parse_python_nom` consumes at least one
character; a failure advances one character past the found index), so the
`length + 1` fuel passed by the entry point is never exhausted — theorem
`scanLoopF_fuel_stable` below — and the `0` case is dead code. -/
def scanLoopF : Nat → Input → List FunctionCall → List FunctionCall
  | 0, _, acc => acc
  | fuel + 1, remaining, acc =>
    if remaining.isEmpty then acc
    else
      match find_next_pattern_start remaining with
      | none => acc
      | some start =>
        match parse_python_nom (remaining.drop start) with
        | some (rest, functions) => scanLoopF fuel rest (acc ++ functions)
        | none =>
          if start + 1 < remaining.length then
            scanLoopF fuel (remaining.drop (start + 1)) acc
          else acc

/-- Rust `parse_python_with_surrounding_text`: scan the whole input for
sentinel-wrapped or bare call lists, skipping unparseable regions; the
function returns `Ok` on every path of its body. -/
def parse_python_with_surrounding_text (input : Input) :
    Except (List Char) (List FunctionCall) :=
  .ok (scanLoopF (input.length + 1) input [])

/-- Rust `parse_python_with_nom`: prefer the surrounding-text scan when it
finds at least one call, otherwise fall back to the strict top-level parser;
the error payload abstracts the Rust `format!("Parse error: {:?}", e)`
message (no claim depends on its text). -/
def parse_python_with_nom (source : Input) : Except (List Char) (List FunctionCall) :=
  match parse_python_with_surrounding_text source with
  | .ok functions =>
    if functions.isEmpty then
      match parse_python_nom source with
      | some (_, function_calls) => .ok function_calls
      | none => .error ("Parse error".toList)
    else .ok functions
  | .error _ =>
    match parse_python_nom source with
    | some (_, function_calls) => .ok function_calls
    | none => .error ("Parse error".toList)

/-- A function call in the middle of being parsed (Rust `PartialFunction`);
carried by the state but never consulted by `parse_incremental`. -/
structure PartialFunction where
  name : List Char
  kwargs : List (List Char × Value)
  in_args : Bool

/-- Rust `NomParserState`: the incremental session's state. -/
structure NomParserState where
  remainder : List Char
  parsed_functions : List FunctionCall
  in_python_block : Bool
  in_function_list : Bool
  current_function : Option PartialFunction

/-- Rust `NomParserState::new`: everything empty. -/
def NomParserState.new : NomParserState :=
  { remainder := []
    parsed_functions := []
    in_python_block := false
    in_function_list := false
    current_function := none }

/-- Rust `NomParserState::reset`: set every field back to its initial
value. -/
def NomParserState.reset (_ : NomParserState) : NomParserState :=
  { remainder := []
    parsed_functions := []
    in_python_block := false
    in_function_list := false
    current_function := none }

/-- Rust `NomParserState::add_input`: append the chunk to the remainder. -/
def NomParserState.add_input (st : NomParserState) (input : List Char) : NomParserState :=
  { st with remainder := st.remainder ++ input }

/-- Rust `NomParserState::get_parsed_functions`. -/
def NomParserState.get_parsed_functions (st : NomParserState) : List FunctionCall :=
  st.parsed_functions

/-- The duplicate test of Rust `parse_incremental`:
`existing.name == func.name && existing.kwargs == func.kwargs`. -/
def isDupOf (func existing : FunctionCall) : Bool :=
  existing.name == func.name && beqKwargs existing.kwargs func.kwargs

/-- Rust `parse_incremental`: append the chunk to the remainder, scan the
whole buffer with the surrounding-text parser, keep the scanned calls that
are not already recorded in `parsed_functions` (comparing against the state
as it was before this call), append them, and return the cumulative list.
The `Err` arm models the fallback to the strict parser (the one `Option`
failure case covers nom's `Incomplete` and `Error`, which the Rust code
treats identically: state unchanged, cumulative list returned).  The
mutation of the Rust `&mut` state is modelled by returning the new state. -/
def parse_incremental (state : NomParserState) (chunk : List Char) :
    Except (List Char) (List FunctionCall) × NomParserState :=
  let state := state.add_input chunk
  let input := state.remainder
  match parse_python_with_surrounding_text input with
  | .ok function_calls =>
    let new_functions := function_calls.filter
      (fun func => !(state.parsed_functions.any (isDupOf func)))
    let state' := { state with
      parsed_functions := state.parsed_functions ++ new_functions }
    (.ok state'.parsed_functions, state')
  | .error _ =>
    match parse_python_nom input with
    | some (remainder, function_calls) =>
      let state' := { state with
        remainder := remainder
        parsed_functions := state.parsed_functions ++ function_calls }
      (.ok state'.parsed_functions, state')
    | none => (.ok state.parsed_functions, state)

/-- Rust `Token` from `src/backend/src/logos_parser.rs`: the logos lexer's
token set (number payloads modelled as exact rationals, see the file
comment). -/
inductive Token where
  | bool (b : Bool)
  | pythonStart
  | pythonEnd
  | bracketOpen
  | bracketClose
  | parenOpen
  | parenClose
  | comma
  | equals
  | number (q : Rat)
  | str (s : List Char)
  | identifier (s : List Char)

/-- One item of the logos token stream: `some` for `Ok(token)`, `none` for
a lexing error item `Err(())`. -/
abbrev LTok := Option Token

/-- Whitespace skipped by the logos lexer (`[ \t\r\n\f]+`). -/
def isLogosSpace (c : Char) : Bool :=
  c = ' ' || c = '\t' || c = '\r' || c = '\n' || c = Char.ofNat 12

/-- The fixed `#[token(...)]` literals of `Token`, with their tokens. -/
def literalToks : List (List Char × Token) :=
  [("False".toList, .bool false), ("True".toList, .bool true),
   (pythonStartTag, .pythonStart), (pythonEndTag, .pythonEnd),
   (['['], .bracketOpen), ([']'], .bracketClose),
   (['('], .parenOpen), ([')'], .parenClose),
   ([','], .comma), (['='], .equals)]

/-- Longest literal token matching at the head of the input. -/
def matchLiteralTok (l : Input) : Option (Nat × Token) :=
  literalToks.foldl
    (fun best kt =>
      if kt.1.isPrefixOf l then
        match best with
        | none => some (kt.1.length, kt.2)
        | some b => if kt.1.length > b.1 then some (kt.1.length, kt.2) else best
      else best)
    none

/-- The logos number regex `-?(0|[1-9]\\d*)(\\.\\d+)?([eE][+-]?\\d+)?`
matched greedily at the head of the input: match length and token.  Unlike
the nom number grammar it forbids leading zeros (`0` only matches alone). -/
def matchNumberTok (l : Input) : Option (Nat × Token) :=
  let signArgs := optNeg l
  match signArgs.2 with
  | [] => none
  | c :: t =>
    if c = '0' then
      let fracRes := lexFracPart t
      let expRes := lexExpPart fracRes.2
      some (l.length - expRes.2.length,
            .number (decimalRat signArgs.1 ['0'] fracRes.1 expRes.1))
    else if '1' ≤ c ∧ c ≤ '9' then
      let intDs := (c :: t).takeWhile Char.isDigit
      let fracRes := lexFracPart ((c :: t).dropWhile Char.isDigit)
      let expRes := lexExpPart fracRes.2
      some (l.length - expRes.2.length,
            .number (decimalRat signArgs.1 intDs fracRes.1 expRes.1))
    else none

/-- Length of a quoted-token body up to and including the closing quote
`q`, per the logos string regex `(?:[^q\\\n]|\\.)*q`: plain characters
other than quote, backslash and newline count one; a backslash followed by
any character but newline counts two. -/
def lexStringBody (q : Char) : Input → Option Nat
  | [] => none
  | c :: rest =>
    if c = q then some 1
    else if c = '\\' then
      match rest with
      | [] => none
      | c2 :: rest2 => if c2 = '\n' then none else (lexStringBody q rest2).map (· + 2)
    else if c = '\n' then none
    else (lexStringBody q rest).map (· + 1)

/-- The logos string regex `(?:"(?:[^"\\\n]|\\.)*"|'(?:[^'\\\n]|\\.)*')`
matched at the head of the input; the token payload strips the quotes and
keeps the body verbatim (`s[1..s.len()-1]`, no unescaping). -/
def matchStringTok (l : Input) : Option (Nat × Token) :=
  match l with
  | c :: rest =>
    if c = '"' || c = Char.ofNat 39 then
      match lexStringBody c rest with
      | some blen => some (blen + 1, .str (rest.take (blen - 1)))
      | none => none
    else none
  | [] => none

/-- The logos identifier regex `[a-zA-Z_][a-zA-Z0-9_]*` matched at the head
of the input (ASCII classes, as written). -/
def matchIdentifierTok (l : Input) : Option (Nat × Token) :=
  match l with
  | c :: rest =>
    if c.isAlpha || c = '_' then
      some (1 + (rest.takeWhile isIdentCont).length,
            .identifier (c :: rest.takeWhile isIdentCont))
    else none
  | [] => none

/-- One lexing step: logos picks the longest match among all token rules;
on equal lengths the fixed literals win over the regex rules (logos gives
`#[token]` literals the higher priority — the only possible tie is a
boolean keyword against the identifier regex). -/
def nextLogosToken (l : Input) : Option (Nat × Token) :=
  let cands := [matchLiteralTok l, matchNumberTok l, matchStringTok l, matchIdentifierTok l]
  cands.foldl
    (fun best c =>
      match best, c with
      | none, c => c
      | some b, some x => if x.1 > b.1 then some x else some b
      | some b, none => some b)
    none

/-- The logos lexer as a list of results, `some token` or `none` for an
error item.  On unmatched input logos emits an error and resumes after the
offending character (modelled as a one-character skip; no input considered
in this development hits the case).  Fuel counts lexing steps; every step
consumes at least one character, so the `length + 1` fuel passed by
`logosTokenize` is never exhausted. -/
def logosTokenizeF : Nat → Input → List LTok
  | 0, _ => []
  | fuel + 1, l =>
    let l1 := l.dropWhile isLogosSpace
    match l1 with
    | [] => []
    | _ =>
      match nextLogosToken l1 with
      | some (len, tok) => some tok :: logosTokenizeF fuel (l1.drop len)
      | none => none :: logosTokenizeF fuel (l1.drop 1)

/-- The logos token stream of a source string. -/
def logosTokenize (source : Input) : List LTok :=
  logosTokenizeF (source.length + 1) source

/-- Rust `handle_post_value`: consume one token after a parsed kwarg value;
a comma signals "continue" (`Value::Empty`), a closing parenthesis ends the
call, anything else — including end of input — signals "continue". -/
def handle_post_value (toks : List LTok) (name : List Char)
    (kwargs : List (List Char × Value)) : List LTok × Value :=
  match toks with
  | some .comma :: rest => (rest, .empty)
  | some .parenClose :: rest => (rest, .functionCall name kwargs)
  | _ :: rest => (rest, .empty)
  | [] => ([], .empty)

/-- Rust `parse_function_with_kwargs`: the kwarg-collecting loop of the
logos parser, entered after the call name and its opening parenthesis.  The
Rust function returns `Result` but every path returns `Ok`; the returned
pair is the unconsumed token stream and the built value.  Fuel counts loop
iterations; every iteration consumes at least one token, so the
`length + 1` fuel passed at each call site is never exhausted. -/
def parse_function_with_kwargs :
    Nat → List LTok → List Char → List (List Char × Value) → List LTok × Value
  | 0, toks, name, kwargs => (toks, .functionCall name kwargs)
  | fuel + 1, toks, name, kwargs =>
    match toks with
    | [] => ([], .functionCall name kwargs)
    | some .pythonStart :: rest => (rest, .functionCall name kwargs)
    | some .parenClose :: rest => (rest, .functionCall name kwargs)
    | some (.identifier key) :: rest =>
      match rest with
      | some .equals :: rest2 =>
        match rest2 with
        | some (.str val) :: rest3 =>
          let kwargs' := insertKwarg kwargs key (.str val)
          match handle_post_value rest3 name kwargs' with
          | (rest4, .functionCall nm kw) => (rest4, .functionCall nm kw)
          | (rest4, _) => parse_function_with_kwargs fuel rest4 name kwargs'
        | some (.bool val) :: rest3 =>
          let kwargs' := insertKwarg kwargs key (.bool val)
          match handle_post_value rest3 name kwargs' with
          | (rest4, .functionCall nm kw) => (rest4, .functionCall nm kw)
          | (rest4, _) => parse_function_with_kwargs fuel rest4 name kwargs'
        | some (.number val) :: rest3 =>
          let kwargs' := insertKwarg kwargs key (.number val)
          match handle_post_value rest3 name kwargs' with
          | (rest4, .functionCall nm kw) => (rest4, .functionCall nm kw)
          | (rest4, _) => parse_function_with_kwargs fuel rest4 name kwargs'
        | some (.identifier val) :: rest3 =>
          let kwargs' := insertKwarg kwargs key (.identifier val)
          match handle_post_value rest3 name kwargs' with
          | (rest4, .functionCall nm kw) => (rest4, .functionCall nm kw)
          | (rest4, _) => parse_function_with_kwargs fuel rest4 name kwargs'
        | some .comma :: rest3 =>
          parse_function_with_kwargs fuel rest3 name (insertKwarg kwargs key .empty)
        | some .parenClose :: rest3 =>
          (rest3, .functionCall name (insertKwarg kwargs key .empty))
        | _ :: rest3 =>
          parse_function_with_kwargs fuel rest3 name (insertKwarg kwargs key .empty)
        | [] =>
          parse_function_with_kwargs fuel [] name (insertKwarg kwargs key .empty)
      | _ :: rest2 => parse_function_with_kwargs fuel rest2 name kwargs
      | [] => parse_function_with_kwargs fuel [] name kwargs
    | some .comma :: rest => parse_function_with_kwargs fuel rest name kwargs
    | some .bracketOpen :: rest => (rest, .functionCall name kwargs)
    | some .pythonEnd :: rest => (rest, .functionCall name kwargs)
    | _ :: rest => parse_function_with_kwargs fuel rest name kwargs

/-- Rust `parse_next_function_in_list`: expect an identifier then an
opening parenthesis; on anything else return `None` with the examined
tokens consumed. -/
def parse_next_function_in_list (toks : List LTok) : List LTok × Option Value :=
  match toks with
  | some (.identifier name) :: rest =>
    match rest with
    | some .parenOpen :: rest2 =>
      let r := parse_function_with_kwargs (rest2.length + 1) rest2 name []
      (r.1, some r.2)
    | _ :: rest2 => (rest2, none)
    | [] => ([], none)
  | _ :: rest => (rest, none)
  | [] => ([], none)

/-- The inner loop of Rust `parse_nested_function_calls`: after a first
function, read comma-separated further functions until a closing bracket,
an end sentinel (which clears the in-block flag), an unexpected token or
the end of input.  Returns the unconsumed tokens, the functions found and
the updated flag.  Fuel as in `parse_function_with_kwargs`. -/
def pnfcInner : Nat → List LTok → Bool → List LTok × List Value × Bool
  | 0, toks, inPy => (toks, [], inPy)
  | fuel + 1, toks, inPy =>
    match toks with
    | some .comma :: rest =>
      match parse_next_function_in_list rest with
      | (rest2, some v) =>
        let r := pnfcInner fuel rest2 inPy
        (r.1, v :: r.2.1, r.2.2)
      | (rest2, none) => (rest2, [], inPy)
    | some .bracketClose :: rest => (rest, [], inPy)
    | some .pythonEnd :: rest => (rest, [], false)
    | _ :: rest => (rest, [], inPy)
    | [] => ([], [], inPy)

/-- The outer loop of Rust `parse_nested_function_calls`: walk the token
stream; a start sentinel sets the in-block flag, an opening bracket starts
a function list (first function, then the inner loop), an end sentinel
clears the flag, every other token is skipped.  Fuel as above. -/
def pnfcOuter : Nat → List LTok → Bool → List Value → List Value
  | 0, _, _, acc => acc
  | fuel + 1, toks, inPy, acc =>
    match toks with
    | [] => acc
    | some .pythonStart :: rest => pnfcOuter fuel rest true acc
    | some .bracketOpen :: rest =>
      match parse_next_function_in_list rest with
      | (rest2, some v) =>
        let r := pnfcInner (rest2.length + 1) rest2 inPy
        pnfcOuter fuel r.1 r.2.2 (acc ++ v :: r.2.1)
      | (rest2, none) => pnfcOuter fuel rest2 inPy acc
    | some .pythonEnd :: rest => pnfcOuter fuel rest false acc
    | _ :: rest => pnfcOuter fuel rest inPy acc

/-- Rust `parse_nested_function_calls`: lex the source and run the outer
loop (the Rust `Result` is always `Ok`; no path constructs an error). -/
def parse_nested_function_calls (source : Input) : List Value :=
  let toks := logosTokenize source
  pnfcOuter (toks.length + 1) toks false []

/-- Rust `parse_python` (the logos engine's strict entry point): extract
the `FunctionCall` values found by `parse_nested_function_calls`, in order.
The error type models `(String, Span)`; no path of the Rust function
constructs one, so the result is always `Ok`. -/
def parse_python (source : Input) : Except (List Char × Nat × Nat) (List FunctionCall) :=
  .ok ((parse_nested_function_calls source).foldr
    (fun v acc =>
      match v with
      | .functionCall nm kw => FunctionCall.ofValueFields nm kw :: acc
      | _ => acc) [])

/-- The `Ok` arm of `parse_incremental` in isolation: scan, filter against
the previously recorded calls, append, return the cumulative list.  Stated
as a separate definition to compare with `parse_incremental`: since the
surrounding-text scanner returns `Ok` on every input, the fallback arm of
`parse_incremental` is unreachable and the two functions agree everywhere
(theorem for claim C10). -/
def parse_incremental_scan_only (state : NomParserState) (chunk : List Char) :
    Except (List Char) (List FunctionCall) × NomParserState :=
  let state := state.add_input chunk
  let input := state.remainder
  let function_calls := scanLoopF (input.length + 1) input []
  let new_functions := function_calls.filter
    (fun func => !(state.parsed_functions.any (isDupOf func)))
  let state' := { state with
    parsed_functions := state.parsed_functions ++ new_functions }
  (.ok state'.parsed_functions, state')

/-- A parser never returns a rest longer than its input (every nom parser
returns a suffix of its input slice). -/
def NonLen {α : Type} (p : Input → NomResult α) : Prop :=
  ∀ l r a, p l = some (r, a) → r.length ≤ l.length

mutual
/-- Structural equality is reflexive on values. -/
theorem Value.beq_refl : ∀ v : Value, Value.beq v v = true
  | .bool _ => by simp [Value.beq]
  | .number _ => by simp [Value.beq]
  | .str _ => by simp [Value.beq]
  | .identifier _ => by simp [Value.beq]
  | .empty => by simp [Value.beq]
  | .list l => by simp [Value.beq, beqValueList_refl l]
  | .functionCall n k => by simp [Value.beq, beqKwargs_refl k]
/-- Structural equality is reflexive on value lists. -/
theorem beqValueList_refl : ∀ l : List Value, beqValueList l l = true
  | [] => by simp [beqValueList]
  | a :: as => by simp [beqValueList, Value.beq_refl a, beqValueList_refl as]
/-- Structural equality is reflexive on kwargs maps. -/
theorem beqKwargs_refl : ∀ l : List (List Char × Value), beqKwargs l l = true
  | [] => by simp [beqKwargs]
  | (_, v) :: r => by simp [beqKwargs, Value.beq_refl v, beqKwargs_refl r]
end

/-- Every call is a structural duplicate of itself. -/
theorem isDupOf_self (f : FunctionCall) : isDupOf f f = true := by
  simp [isDupOf, beqKwargs_refl]

/-- The scan loop on an exhausted buffer returns the accumulator, whatever
the fuel. -/
theorem scanLoopF_nil (fuel : Nat) (acc : List FunctionCall) :
    scanLoopF fuel [] acc = acc := by
  cases fuel <;> simp [scanLoopF]

/-- Claim C4 (confirmed): for every session state and every chunk, `feed`
returns successfully — every branch of `parse_incremental`, including the
fallback after a failed strict re-parse, yields the cumulative
`parsed_functions` list wrapped in `Ok` rather than an error. -/
theorem parse_incremental_always_ok (state : NomParserState) (chunk : List Char) :
    ∃ calls, (parse_incremental state chunk).1 = Except.ok calls :=
  ⟨_, rfl⟩

/-- Claim C10 (confirmed): `parse_python_with_surrounding_text` returns `Ok`
on every input (its declared error variant is never produced), hence the
scanner-error fallback arm inside `parse_incremental` is unreachable:
`parse_incremental` agrees everywhere with `parse_incremental_scan_only`,
the definition consisting of the `Ok` arm alone. -/
theorem surrounding_text_total_fallback_unreachable :
    (∀ input : Input, ∃ fs, parse_python_with_surrounding_text input = .ok fs) ∧
    (∀ (st : NomParserState) (chunk : List Char),
      parse_incremental st chunk = parse_incremental_scan_only st chunk) :=
  ⟨fun _ => ⟨_, rfl⟩, fun _ _ => rfl⟩

/-- Claim C2 (counterexample): feeding `"[g(), g()]"` to a fresh session in
one chunk records both structurally identical calls — `parsed_functions`
ends with two entries, not one, because the duplicate filter compares only
against calls recorded by earlier `feed` calls, and `parsed_functions` is
extended after the whole scan is filtered. -/
theorem dedup_within_feed_counterexample :
    (parse_incremental NomParserState.new ("[g(), g()]".toList)).1
      = .ok [⟨"g".toList, []⟩, ⟨"g".toList, []⟩] ∧
    (parse_incremental NomParserState.new ("[g(), g()]".toList)).2.parsed_functions.length = 2 ∧
    (parse_incremental NomParserState.new ("[g(), g()]".toList)).2.parsed_functions.length ≠ 1 :=
  ⟨rfl, rfl, by decide⟩

/-- Claim C2 (corrected): the raw scan of `"[g(), g()]"` produces two
entries and a single feed of it records both; deduplication acts only
across `feed` calls — a later feed whose scan reproduces the recorded calls
(and one more equal copy) adds nothing. -/
theorem dedup_across_feeds_only :
    parse_python_with_surrounding_text ("[g(), g()]".toList)
      = .ok [⟨"g".toList, []⟩, ⟨"g".toList, []⟩] ∧
    (parse_incremental NomParserState.new ("[g(), g()]".toList)).2.parsed_functions
      = [⟨"g".toList, []⟩, ⟨"g".toList, []⟩] ∧
    (parse_incremental (parse_incremental NomParserState.new ("[g(), g()]".toList)).2
        (" [g()]".toList)).1
      = .ok [⟨"g".toList, []⟩, ⟨"g".toList, []⟩] :=
  ⟨rfl, rfl, rfl⟩

/-- Claim C5 (code bug): the string parser rejects every quoted literal
whose body contains a backslash — both supported escapes such as `\t` and
arbitrary ones such as `\z` — because nom's `escaped` with a zero-width
`take_while` never reaches its escape branch, while the same grammar
accepts the backslash-free body; `unescape_string` implements exactly the
decode table the spec states, but `parse_string` can never hand it a body
with a backslash. -/
theorem escaped_strings_rejected_not_decoded :
    parse_string ("\"a\\tb\"".toList) = none ∧
    parse_string ("\"a\\zb\"".toList) = none ∧
    parse_string ("\"ab\"".toList) = some ([], "ab".toList) ∧
    unescape_string ("a\\tb".toList) = "a\tb".toList ∧
    unescape_string ("a\\zb".toList) = "azb".toList :=
  ⟨rfl, rfl, rfl, rfl, rfl⟩

/-- Claim C6 (counterexample): a feed whose scan successfully consumes the
whole buffer (it returns the parsed call) leaves the consumed text in
`remainder`: after feeding `"[f()]"` the session's remainder is still the
full `"[f()]"`, not the empty string the claim requires. -/
theorem remainder_not_shrunk_counterexample :
    (parse_incremental NomParserState.new ("[f()]".toList)).1 = .ok [⟨"f".toList, []⟩] ∧
    (parse_incremental NomParserState.new ("[f()]".toList)).2.remainder = "[f()]".toList ∧
    (parse_incremental NomParserState.new ("[f()]".toList)).2.remainder ≠ [] :=
  ⟨rfl, rfl, by decide⟩

/-- Claim C6 (corrected): across a session's life the remainder only grows
— each `feed` appends its chunk and never drops a consumed prefix (the
reachable arm of `parse_incremental` leaves `remainder` untouched); only
`reset` clears it. -/
theorem remainder_append_only (st : NomParserState) (chunk : List Char) :
    (parse_incremental st chunk).2.remainder = st.remainder ++ chunk ∧
    (NomParserState.reset st).remainder = [] :=
  ⟨rfl, rfl⟩

/-- Claim C9 (counterexample): the logos engine's strict entry point
returns an empty success on the bare input `"not a call"`, not the reported
error the claim requires of both engines. -/
theorem logos_not_a_call_empty_success :
    parse_python ("not a call".toList) = .ok [] :=
  rfl

/-- Claim C9 (corrected): on the bare input `"not a call"` the nom engine's
strict entry point reports an error, while the logos engine's returns a
success carrying the empty call list. -/
theorem not_a_call_nom_errors_logos_empty :
    (parse_python_with_nom ("not a call".toList)).isOk = false ∧
    parse_python ("not a call".toList) = .ok [] :=
  ⟨rfl, rfl⟩

/-- Every scanned call is already present, up to the duplicate test, after
the scan has been filtered against `P` and appended to it, so a second
filtering pass over the same scan keeps nothing. -/
theorem filter_new_dups_nil (P C : List FunctionCall) :
    C.filter (fun func =>
      !((P ++ C.filter (fun g => !(P.any (isDupOf g)))).any (isDupOf func))) = [] := by
  rw [List.filter_eq_nil_iff]
  intro c hc
  simp only [Bool.not_eq_false', List.any_append, Bool.or_eq_true]
  by_cases hp : P.any (isDupOf c) = true
  · simp [hp]
  · have hmem : c ∈ C.filter (fun g => !(P.any (isDupOf g))) :=
      List.mem_filter.mpr ⟨hc, by simp [hp]⟩
    have hany : (C.filter (fun g => !(P.any (isDupOf g)))).any (isDupOf c) = true :=
      List.any_eq_true.mpr ⟨c, hmem, isDupOf_self c⟩
    simp [hany]

/-- Feeding the empty chunk runs the scan over the unchanged remainder and
filters it against the current recorded calls. -/
theorem parse_incremental_nil (s : NomParserState) :
    parse_incremental s [] =
      (.ok (s.parsed_functions ++ (scanLoopF (s.remainder.length + 1) s.remainder []).filter
          (fun func => !(s.parsed_functions.any (isDupOf func)))),
       { s with parsed_functions := (s.parsed_functions ++
          (scanLoopF (s.remainder.length + 1) s.remainder []).filter
            (fun func => !(s.parsed_functions.any (isDupOf func)))) }) := by
  simp only [parse_incremental, NomParserState.add_input, List.append_nil,
    parse_python_with_surrounding_text]

/-- Claim C7 (confirmed): after any `feed` call, an immediately following
`feed("")` on the same session returns exactly the same cumulative call
list and leaves `parsed_functions` unchanged. -/
theorem feed_empty_idempotent (st : NomParserState) (chunk : List Char) :
    (parse_incremental (parse_incremental st chunk).2 []).1
      = (parse_incremental st chunk).1 ∧
    (parse_incremental (parse_incremental st chunk).2 []).2.parsed_functions
      = (parse_incremental st chunk).2.parsed_functions := by
  have e1 : parse_incremental st chunk =
      (.ok (st.parsed_functions ++
          (scanLoopF ((st.remainder ++ chunk).length + 1) (st.remainder ++ chunk) []).filter
            (fun func => !(st.parsed_functions.any (isDupOf func)))),
       { remainder := st.remainder ++ chunk
         parsed_functions := st.parsed_functions ++
          (scanLoopF ((st.remainder ++ chunk).length + 1) (st.remainder ++ chunk) []).filter
            (fun func => !(st.parsed_functions.any (isDupOf func)))
         in_python_block := st.in_python_block
         in_function_list := st.in_function_list
         current_function := st.current_function }) := rfl
  rw [e1, parse_incremental_nil]
  simp
  intro a ha hnot
  exact ⟨a, ha, hnot, isDupOf_self a⟩

/-- Claim C3 (counterexample): splitting the valid input
`"[f(a='[g()]')]"` after its first 11 characters (`"[f(a='[g()]"`) and
feeding the two chunks to a fresh session records a spurious call `g` —
scanned out of the then-unterminated string literal — before `f`, while
feeding the whole input in one chunk records `f` alone, so the cumulative
results differ. -/
theorem split_chunks_differ_counterexample :
    (parse_incremental NomParserState.new ("[f(a='[g()]')]".toList)).1
      = .ok [⟨"f".toList, [("a".toList, Value.str ("[g()]".toList))]⟩] ∧
    (parse_incremental
        (parse_incremental NomParserState.new (("[f(a='[g()]')]".toList).take 11)).2
        (("[f(a='[g()]')]".toList).drop 11)).1
      = .ok [⟨"g".toList, []⟩, ⟨"f".toList, [("a".toList, Value.str ("[g()]".toList))]⟩] ∧
    (("[f(a='[g()]')]".toList).take 11) ++ (("[f(a='[g()]')]".toList).drop 11)
      = "[f(a='[g()]')]".toList ∧
    (parse_incremental
        (parse_incremental NomParserState.new (("[f(a='[g()]')]".toList).take 11)).2
        (("[f(a='[g()]')]".toList).drop 11)).1
      ≠ (parse_incremental NomParserState.new ("[f(a='[g()]')]".toList)).1 := by
  refine ⟨rfl, rfl, rfl, fun h => ?_⟩
  have h2 : (2 : Nat) = 1 := congrArg
    (fun r : Except (List Char) (List FunctionCall) =>
      match r with
      | .ok l => l.length
      | .error _ => 0) h
  exact absurd h2 (by decide)

/-- Claim C3 (corrected): feeding a valid input split into two chunks
agrees with feeding it whole whenever the scan of the first chunk alone
finds no calls — in particular when the split lands inside a quoted
string's body.  (A split inside an escape sequence, the case the claim
highlights, satisfies the hypothesis vacuously as well: by the string
escape bug of claim C5, strings with escapes never parse at all.)  In
general the two feedings may disagree, see the counterexample. -/
theorem split_chunks_agree_when_head_scan_empty (c1 c2 : List Char)
    (h : parse_python_with_surrounding_text c1 = .ok []) :
    (parse_incremental (parse_incremental NomParserState.new c1).2 c2).1
      = (parse_incremental NomParserState.new (c1 ++ c2)).1 := by
  have hscan : scanLoopF (c1.length + 1) c1 [] = [] := by
    have h' := h
    simp only [parse_python_with_surrounding_text, Except.ok.injEq] at h'
    exact h'
  have e1 : (parse_incremental NomParserState.new c1).2 =
      { remainder := c1
        parsed_functions := (scanLoopF (c1.length + 1) c1 []).filter
          (fun func => !(List.any [] (isDupOf func)))
        in_python_block := false
        in_function_list := false
        current_function := none } := rfl
  rw [e1, hscan]
  rfl

/-- Witness for claim C3's corrected theorem: two concrete splits of
`"[f(x='abcd')]"`, one inside the quoted string body and one (of
`"[f(x='a\\tb')]"`) right inside its escape sequence, both with an empty
first-chunk scan. -/
theorem split_chunks_agree_witness :
    (parse_python_with_surrounding_text ("[f(x='ab".toList) = .ok [] ∧
      (parse_incremental (parse_incremental NomParserState.new ("[f(x='ab".toList)).2
          ("cd')]".toList)).1
        = (parse_incremental NomParserState.new ("[f(x='ab".toList ++ "cd')]".toList)).1) ∧
    (parse_python_with_surrounding_text ("[f(x='a\\".toList) = .ok [] ∧
      (parse_incremental (parse_incremental NomParserState.new ("[f(x='a\\".toList)).2
          ("tb')]".toList)).1
        = (parse_incremental NomParserState.new ("[f(x='a\\".toList ++ "tb')]".toList)).1) :=
  ⟨⟨rfl, split_chunks_agree_when_head_scan_empty _ _ rfl⟩,
   ⟨rfl, split_chunks_agree_when_head_scan_empty _ _ rfl⟩⟩

/-- A pattern that matches at the head of the input is found at index 0. -/
theorem findSubIdx_of_isPrefixOf (pat l : List Char) (h : pat.isPrefixOf l = true) :
    findSubIdx pat l = some 0 := by
  cases l with
  | nil =>
    cases pat with
    | nil => rfl
    | cons c cs => simp [List.isPrefixOf] at h
  | cons c rest => simp [findSubIdx, h]

/-- Whatever the top-level parser accepts starts with the start sentinel or
an opening bracket, so the pattern search finds index 0. -/
theorem find_next_pattern_start_zero (s : Input) (r : Input × List FunctionCall)
    (h : parse_python_nom s = some r) :
    find_next_pattern_start s = some 0 := by
  have hhead : pythonStartTag.isPrefixOf s = true ∨ (['[']).isPrefixOf s = true := by
    unfold parse_python_nom palt2 at h
    cases hb : parse_python_block s with
    | some rb =>
      left
      unfold parse_python_block at hb
      cases hp : ptag pythonStartTag s with
      | some _ => unfold ptag at hp; by_cases hpre : pythonStartTag.isPrefixOf s = true
                  · exact hpre
                  · simp [hpre] at hp
      | none => rw [hp] at hb; exact absurd hb (by simp)
    | none =>
      right
      rw [hb] at h
      unfold parse_function_list at h
      cases s with
      | nil => simp [pchar] at h
      | cons c t =>
        by_cases hc : c = '['
        · subst hc; simp [List.isPrefixOf]
        · simp [pchar, hc] at h
  rcases hhead with hp | hb
  · have h0 := findSubIdx_of_isPrefixOf _ _ hp
    unfold find_next_pattern_start
    rw [h0]
    cases hfb : findSubIdx ['['] s <;> simp
  · have h0 := findSubIdx_of_isPrefixOf _ _ hb
    unfold find_next_pattern_start
    rw [h0]
    cases hfp : findSubIdx pythonStartTag s <;> simp

/-- When the whole buffer is one full match of the top-level grammar, the
surrounding-text scan returns exactly its calls: the pattern search finds
index 0, the parse consumes everything, and the loop stops on the empty
rest. -/
theorem scanLoopF_of_full_match (s : Input) (calls : List FunctionCall)
    (h : parse_python_nom s = some ([], calls)) :
    scanLoopF (s.length + 1) s [] = calls := by
  cases s with
  | nil => exact absurd h (by simp [parse_python_nom, palt2, parse_python_block,
      parse_function_list, ptag, pchar, pythonStartTag])
  | cons c t =>
    have hfind := find_next_pattern_start_zero (c :: t) _ h
    simp only [scanLoopF, List.isEmpty_cons, Bool.false_eq_true, if_false, hfind,
      List.drop_zero, h]
    simp

/-- A feed into a fresh session returns the scan of the chunk, filtered
against the empty record (the chunk is the whole buffer). -/
theorem fresh_feed_eq_scan (s : List Char) :
    (parse_incremental NomParserState.new s).1
      = .ok ((scanLoopF (s.length + 1) s []).filter
          (fun func => !(List.any [] (isDupOf func)))) :=
  rfl

/-- Claim C1 (confirmed): for every input that fully matches the top-level
grammar (sentinel-wrapped or bare call list, consumed to the end), the
strict one-shot entry point `parse_python_with_nom` and a single feed of
the whole input into a freshly created incremental session return the same
ordered call list. -/
theorem strict_parse_eq_single_feed (s : List Char) (calls : List FunctionCall)
    (hfull : parse_python_nom s = some ([], calls)) :
    parse_python_with_nom s = .ok calls ∧
    (parse_incremental NomParserState.new s).1 = .ok calls := by
  have hscan := scanLoopF_of_full_match s calls hfull
  constructor
  · unfold parse_python_with_nom parse_python_with_surrounding_text
    rw [hscan]
    by_cases hx : calls.isEmpty
    · simp only [hx, if_true, hfull]
    · simp only [hx, Bool.false_eq_true, if_false]
  · rw [fresh_feed_eq_scan, hscan]
    simp

/-- Witness for claim C1: the input `"[g()]"` fully matches the grammar,
and both entry points return its single call. -/
theorem strict_parse_eq_single_feed_witness :
    parse_python_nom ("[g()]".toList) = some ([], [⟨"g".toList, []⟩]) ∧
    parse_python_with_nom ("[g()]".toList) = .ok [⟨"g".toList, []⟩] ∧
    (parse_incremental NomParserState.new ("[g()]".toList)).1 = .ok [⟨"g".toList, []⟩] :=
  ⟨rfl,
   (strict_parse_eq_single_feed ("[g()]".toList) [⟨"g".toList, []⟩] rfl).1,
   (strict_parse_eq_single_feed ("[g()]".toList) [⟨"g".toList, []⟩] rfl).2⟩

/-- Dropping a matched prefix never lengthens the input. -/
theorem ms0_length_le (l : Input) : (ms0 l).length ≤ l.length :=
  (List.dropWhile_sublist _).length_le

/-- `char` consumes exactly one character. -/
theorem pchar_length_lt {c : Char} {l r : Input} {a : Char}
    (h : pchar c l = some (r, a)) : r.length < l.length := by
  cases l with
  | nil => simp [pchar] at h
  | cons x t =>
    by_cases hx : x = c
    · simp only [pchar, if_pos hx, Option.some.injEq, Prod.mk.injEq] at h
      obtain ⟨h1, _⟩ := h
      subst h1
      simp
    · simp [pchar, hx] at h

/-- `tag` never lengthens the input. -/
theorem ptag_length_le {t l r : Input} {a : List Char}
    (h : ptag t l = some (r, a)) : r.length ≤ l.length := by
  unfold ptag at h
  split at h
  · simp only [Option.some.injEq, Prod.mk.injEq] at h
    obtain ⟨h1, _⟩ := h
    subst h1
    simp
  · exact absurd h (by simp)

/-- A nonempty `tag` strictly consumes. -/
theorem ptag_length_lt {t l r : Input} {a : List Char} (ht : t ≠ [])
    (h : ptag t l = some (r, a)) : r.length < l.length := by
  unfold ptag at h
  split at h
  case isTrue hpre =>
    simp only [Option.some.injEq, Prod.mk.injEq] at h
    obtain ⟨h1, _⟩ := h
    subst h1
    cases t with
    | nil => exact absurd rfl ht
    | cons c cs =>
      cases l with
      | nil => simp [List.isPrefixOf] at hpre
      | cons x xs => simp only [List.length_drop, List.length_cons]; omega
  · exact absurd h (by simp)

/-- `one_of` consumes exactly one character. -/
theorem pone_of_length_lt {s : List Char} {l r : Input} {a : Char}
    (h : pone_of s l = some (r, a)) : r.length < l.length := by
  cases l with
  | nil => simp [pone_of] at h
  | cons x t =>
    simp only [pone_of] at h
    split at h
    · simp only [Option.some.injEq, Prod.mk.injEq] at h
      obtain ⟨h1, _⟩ := h
      subst h1
      simp
    · exact absurd h (by simp)

/-- `digit1` never lengthens the input. -/
theorem digit1_length_le {l r : Input} {a : List Char}
    (h : digit1 l = some (r, a)) : r.length ≤ l.length := by
  simp only [digit1] at h
  split at h
  · exact absurd h (by simp)
  · simp only [Option.some.injEq, Prod.mk.injEq] at h
    obtain ⟨h1, _⟩ := h
    subst h1
    exact (List.dropWhile_sublist _).length_le

/-- The fraction helper never lengthens the input. -/
theorem lexFracPart_length_le (l : Input) : (lexFracPart l).2.length ≤ l.length := by
  simp only [lexFracPart]
  split
  case h_1 u =>
    split
    · simp
    · calc (List.dropWhile Char.isDigit u).length
          ≤ u.length := (List.dropWhile_sublist _).length_le
        _ ≤ ('.' :: u).length := by simp
  · simp

/-- The sign part of the exponent helper never lengthens the input. -/
theorem lexExpSign_length_le (u : Input) :
    (match u with
      | '+' :: w => ((false : Bool), w)
      | '-' :: w => ((true : Bool), w)
      | _ => (false, u)).2.length ≤ u.length := by
  split <;> simp

/-- The exponent helper never lengthens the input. -/
theorem lexExpPart_length_le (l : Input) : (lexExpPart l).2.length ≤ l.length := by
  simp only [lexExpPart]
  split
  case h_1 e u =>
    by_cases he : e = 'e' || e = 'E'
    · simp only [he, if_true]
      split
      · simp
      · calc (List.dropWhile Char.isDigit _).length
            ≤ _ := (List.dropWhile_sublist _).length_le
          _ ≤ u.length := lexExpSign_length_le u
          _ ≤ (e :: u).length := by simp
    · simp [he]
  · simp

/-- `alt` preserves non-lengthening. -/
theorem palt2_nonlen {α : Type} {p q : Input → NomResult α}
    (hp : NonLen p) (hq : NonLen q) : NonLen (palt2 p q) := by
  intro l r a h
  unfold palt2 at h
  split at h
  case h_1 x heq =>
    obtain ⟨r', a'⟩ := x
    cases h
    exact hp l _ _ heq
  case h_2 => exact hq l r a h

/-- `map` preserves non-lengthening. -/
theorem pmap_nonlen {α β : Type} {p : Input → NomResult α} (f : α → β)
    (hp : NonLen p) : NonLen (pmap p f) := by
  intro l r a h
  unfold pmap at h
  split at h
  case h_1 rest a' heq =>
    simp only [Option.some.injEq, Prod.mk.injEq] at h
    obtain ⟨h1, _⟩ := h
    subst h1
    exact hp l rest a' heq
  case h_2 => exact absurd h (by simp)

/-- `tag` is non-lengthening. -/
theorem ptag_nonlen (t : List Char) : NonLen (ptag t) :=
  fun _ _ _ h => ptag_length_le h

/-- Rust `parse_bool` is non-lengthening. -/
theorem parse_bool_nonlen : NonLen parse_bool := by
  intro l r a h
  unfold parse_bool at h
  exact palt2_nonlen (pmap_nonlen _ (ptag_nonlen _)) (pmap_nonlen _ (ptag_nonlen _)) l r a h

/-- One quoted branch of the string parser is non-lengthening. -/
theorem parse_string_quoted_length_le {q : Char} {l r : Input} {a : List Char}
    (h : parse_string_quoted q l = some (r, a)) : r.length ≤ l.length := by
  unfold parse_string_quoted at h
  split at h
  · exact absurd h (by simp)
  case h_2 l1 c1 heq1 =>
    unfold escaped_take_while at h
    split at h
    · exact absurd h (by simp)
    case h_2 l2 body heq2 =>
      simp only [Option.some.injEq, Prod.mk.injEq] at heq2
      obtain ⟨h2, _⟩ := heq2
      split at h
      · exact absurd h (by simp)
      case h_2 l3 c3 heq3 =>
        simp only [Option.some.injEq, Prod.mk.injEq] at h
        obtain ⟨h3, _⟩ := h
        subst h3
        have e1 : l1.length < l.length := pchar_length_lt heq1
        have e2 : l2.length ≤ l1.length := by
          rw [← h2]; exact (List.dropWhile_sublist _).length_le
        have e3 : l3.length < l2.length := pchar_length_lt heq3
        omega

/-- Rust `parse_string` is non-lengthening. -/
theorem parse_string_nonlen : NonLen parse_string := by
  intro l r a h
  unfold parse_string at h
  exact pmap_nonlen unescape_string
    (palt2_nonlen (fun _ _ _ hh => parse_string_quoted_length_le hh)
                  (fun _ _ _ hh => parse_string_quoted_length_le hh)) l r a h

/-- The sign prefix never lengthens the input. -/
theorem optNeg_length_le (l : Input) : (optNeg l).2.length ≤ l.length := by
  unfold optNeg
  split <;> simp

/-- Rust `parse_number` is non-lengthening. -/
theorem parse_number_nonlen : NonLen parse_number := by
  intro l r a h
  simp only [parse_number] at h
  split at h
  · exact absurd h (by simp)
  case h_2 l2 intDs heq =>
    simp only [Option.some.injEq, Prod.mk.injEq] at h
    obtain ⟨h1, _⟩ := h
    subst h1
    have e0 : (optNeg l).2.length ≤ l.length := optNeg_length_le l
    have e1 := digit1_length_le heq
    have e2 := lexFracPart_length_le l2
    have e3 := lexExpPart_length_le (lexFracPart l2).2
    omega

/-- Rust `parse_identifier` is non-lengthening. -/
theorem parse_identifier_nonlen : NonLen parse_identifier := by
  intro l r a h
  unfold parse_identifier at h
  split at h
  · exact absurd h (by simp)
  case h_2 rest c heq =>
    simp only [Option.some.injEq, Prod.mk.injEq] at h
    obtain ⟨h1, _⟩ := h
    subst h1
    have e1 : rest.length < l.length := pone_of_length_lt heq
    have e2 : (rest.dropWhile isIdentCont).length ≤ rest.length :=
      (List.dropWhile_sublist _).length_le
    omega

/-- Every parser of the mutually recursive value grammar is
non-lengthening, at every fuel. -/
theorem grammarF_nonlen : ∀ n : Nat,
    NonLen (parseValueF n) ∧ NonLen (parseListF n) ∧
    NonLen (parseValueItemsF n) ∧ NonLen (parseValueItemsLoopF n) ∧
    NonLen (parseDictEntryF n) ∧ NonLen (parseDictItemsF n) ∧
    NonLen (parseDictItemsLoopF n) ∧ NonLen (parseDictF n) := by
  intro n
  induction n with
  | zero =>
    refine ⟨?_, ?_, ?_, ?_, ?_, ?_, ?_, ?_⟩ <;>
      · intro l r a h
        simp [parseValueF, parseListF, parseValueItemsF, parseValueItemsLoopF,
          parseDictEntryF, parseDictItemsF, parseDictItemsLoopF, parseDictF] at h
  | succ n ih =>
    obtain ⟨ihv, ihl, ihit, ihlp, ihde, ihdi, ihdl, ihd⟩ := ih
    have hval : NonLen (parseValueF (n + 1)) := by
      intro l r a h
      simp only [parseValueF] at h
      have hm : (ms0 l).length ≤ l.length := ms0_length_le l
      split at h
      case h_1 x heq =>
        obtain ⟨r', a'⟩ := x; cases h
        exact le_trans (pmap_nonlen _ parse_bool_nonlen _ _ _ heq) hm
      case h_2 _ heq0 =>
      split at h
      case h_1 x heq =>
        obtain ⟨r', a'⟩ := x; cases h
        exact le_trans (pmap_nonlen _ parse_string_nonlen _ _ _ heq) hm
      case h_2 _ heq1 =>
      split at h
      case h_1 x heq =>
        obtain ⟨r', a'⟩ := x; cases h
        exact le_trans (pmap_nonlen _ parse_number_nonlen _ _ _ heq) hm
      case h_2 _ heq2 =>
      split at h
      case h_1 x heq =>
        obtain ⟨r', a'⟩ := x; cases h
        exact le_trans (pmap_nonlen _ (ptag_nonlen _) _ _ _ heq) hm
      case h_2 _ heq3 =>
      split at h
      case h_1 x heq =>
        obtain ⟨r', a'⟩ := x; cases h
        exact le_trans (ihl _ _ _ heq) hm
      case h_2 _ heq4 =>
      split at h
      case h_1 x heq =>
        obtain ⟨r', a'⟩ := x; cases h
        exact le_trans (ihd _ _ _ heq) hm
      case h_2 _ heq5 =>
        exact le_trans (pmap_nonlen _ parse_identifier_nonlen _ _ _ h) hm
    have hloop : NonLen (parseValueItemsLoopF (n + 1)) := by
      intro i r a h
      simp only [parseValueItemsLoopF] at h
      split at h
      case h_1 => cases h; exact le_refl _
      case h_2 i1 c1 heq1 =>
        split at h
        · exact absurd h (by simp)
        case isFalse hguard =>
          split at h
          case h_1 => cases h; exact le_refl _
          case h_2 i2 v heq2 =>
            split at h
            · exact absurd h (by simp)
            case h_2 i3 vs heq3 =>
              simp only [Option.some.injEq, Prod.mk.injEq] at h
              obtain ⟨h1, _⟩ := h
              subst h1
              have e1 : i1.length < (ms0 i).length := pchar_length_lt heq1
              have e2 : i2.length ≤ (ms0 i1).length := ihv _ _ _ heq2
              have e3 : i3.length ≤ i2.length := ihlp _ _ _ heq3
              have e4 := ms0_length_le i
              have e5 := ms0_length_le i1
              omega
    have hitems : NonLen (parseValueItemsF (n + 1)) := by
      intro i r a h
      simp only [parseValueItemsF] at h
      split at h
      case h_1 => cases h; exact le_refl _
      case h_2 i1 v heq1 =>
        split at h
        · exact absurd h (by simp)
        case h_2 i2 vs heq2 =>
          simp only [Option.some.injEq, Prod.mk.injEq] at h
          obtain ⟨h1, _⟩ := h
          subst h1
          have e1 : i1.length ≤ (ms0 i).length := ihv _ _ _ heq1
          have e2 : i2.length ≤ i1.length := ihlp _ _ _ heq2
          have e3 := ms0_length_le i
          omega
    have hlist : NonLen (parseListF (n + 1)) := by
      intro l r a h
      simp only [parseListF] at h
      split at h
      · exact absurd h (by simp)
      case h_2 l1 c1 heq1 =>
        split at h
        · exact absurd h (by simp)
        case h_2 l2 vs heq2 =>
          split at h
          · exact absurd h (by simp)
          case h_2 l3 c3 heq3 =>
            simp only [Option.some.injEq, Prod.mk.injEq] at h
            obtain ⟨h1, _⟩ := h
            subst h1
            have e1 : l1.length < l.length := pchar_length_lt heq1
            have e2 : l2.length ≤ l1.length := ihit _ _ _ heq2
            have e3 : l3.length < (ms0 l2).length := pchar_length_lt heq3
            have e4 := ms0_length_le l2
            omega
    have hentry : NonLen (parseDictEntryF (n + 1)) := by
      intro i r a h
      simp only [parseDictEntryF] at h
      split at h
      · exact absurd h (by simp)
      case h_2 i1 key heq1 =>
        split at h
        · exact absurd h (by simp)
        case h_2 i2 c2 heq2 =>
          split at h
          · exact absurd h (by simp)
          case h_2 i3 v heq3 =>
            simp only [Option.some.injEq, Prod.mk.injEq] at h
            obtain ⟨h1, _⟩ := h
            subst h1
            have e1 : i1.length ≤ (ms0 i).length := parse_string_nonlen _ _ _ heq1
            have e2 : i2.length < (ms0 i1).length := pchar_length_lt heq2
            have e3 : i3.length ≤ i2.length := ihv _ _ _ heq3
            have e4 := ms0_length_le i
            have e5 := ms0_length_le i1
            omega
    have hdloop : NonLen (parseDictItemsLoopF (n + 1)) := by
      intro i r a h
      simp only [parseDictItemsLoopF] at h
      split at h
      case h_1 => cases h; exact le_refl _
      case h_2 i1 c1 heq1 =>
        split at h
        · exact absurd h (by simp)
        case isFalse hguard =>
          split at h
          case h_1 => cases h; exact le_refl _
          case h_2 i2 kv heq2 =>
            split at h
            · exact absurd h (by simp)
            case h_2 i3 kvs heq3 =>
              simp only [Option.some.injEq, Prod.mk.injEq] at h
              obtain ⟨h1, _⟩ := h
              subst h1
              have e1 : i1.length < (ms0 i).length := pchar_length_lt heq1
              have e2 : i2.length ≤ i1.length := ihde _ _ _ heq2
              have e3 : i3.length ≤ i2.length := ihdl _ _ _ heq3
              have e4 := ms0_length_le i
              omega
    have hditems : NonLen (parseDictItemsF (n + 1)) := by
      intro i r a h
      simp only [parseDictItemsF] at h
      split at h
      case h_1 => cases h; exact le_refl _
      case h_2 i1 kv heq1 =>
        split at h
        · exact absurd h (by simp)
        case h_2 i2 kvs heq2 =>
          simp only [Option.some.injEq, Prod.mk.injEq] at h
          obtain ⟨h1, _⟩ := h
          subst h1
          have e1 : i1.length ≤ i.length := ihde _ _ _ heq1
          have e2 : i2.length ≤ i1.length := ihdl _ _ _ heq2
          omega
    have hdict : NonLen (parseDictF (n + 1)) := by
      intro l r a h
      simp only [parseDictF] at h
      split at h
      · exact absurd h (by simp)
      case h_2 l1 c1 heq1 =>
        split at h
        · exact absurd h (by simp)
        case h_2 l2 entries heq2 =>
          split at h
          · exact absurd h (by simp)
          case h_2 l3 c3 heq3 =>
            simp only [Option.some.injEq, Prod.mk.injEq] at h
            obtain ⟨h1, _⟩ := h
            subst h1
            have e1 : l1.length < l.length := pchar_length_lt heq1
            have e2 : l2.length ≤ l1.length := ihdi _ _ _ heq2
            have e3 : l3.length < (ms0 l2).length := pchar_length_lt heq3
            have e4 := ms0_length_le l2
            omega
    exact ⟨hval, hlist, hitems, hloop, hentry, hditems, hdloop, hdict⟩

/-- Rust `parse_value` is non-lengthening. -/
theorem parse_value_nonlen : NonLen parse_value := by
  intro l r a h
  exact (grammarF_nonlen (4 * l.length + 8)).1 l r a h

/-- The `separated_list0` loop is non-lengthening when its separator and
element parsers are. -/
theorem psepList0Loop_nonlen {β : Type} {sep : Input → NomResult Char}
    {elt : Input → NomResult β} (hsep : NonLen sep) (helt : NonLen elt) :
    ∀ (k : Nat) (i r : Input) (vs : List β),
      psepList0Loop sep elt k i = some (r, vs) → r.length ≤ i.length := by
  intro k
  induction k with
  | zero => intro i r vs h; simp [psepList0Loop] at h
  | succ k ih =>
    intro i r vs h
    simp only [psepList0Loop] at h
    split at h
    case h_1 => cases h; exact le_refl _
    case h_2 i1 c1 heq1 =>
      split at h
      · exact absurd h (by simp)
      case isFalse hguard =>
        split at h
        case h_1 => cases h; exact le_refl _
        case h_2 i2 v heq2 =>
          split at h
          · exact absurd h (by simp)
          case h_2 i3 vs' heq3 =>
            simp only [Option.some.injEq, Prod.mk.injEq] at h
            obtain ⟨h1, _⟩ := h
            subst h1
            have e1 : i1.length ≤ i.length := hsep _ _ _ heq1
            have e2 : i2.length ≤ i1.length := helt _ _ _ heq2
            have e3 : i3.length ≤ i2.length := ih _ _ _ heq3
            omega

/-- `separated_list0` is non-lengthening when its parsers are. -/
theorem psepList0_nonlen {β : Type} {sep : Input → NomResult Char}
    {elt : Input → NomResult β} (hsep : NonLen sep) (helt : NonLen elt) :
    NonLen (psepList0 sep elt) := by
  intro i r vs h
  unfold psepList0 at h
  split at h
  case h_1 => cases h; exact le_refl _
  case h_2 i1 v heq1 =>
    split at h
    · exact absurd h (by simp)
    case h_2 i2 vs' heq2 =>
      simp only [Option.some.injEq, Prod.mk.injEq] at h
      obtain ⟨h1, _⟩ := h
      subst h1
      have e1 : i1.length ≤ i.length := helt _ _ _ heq1
      have e2 : i2.length ≤ i1.length := psepList0Loop_nonlen hsep helt _ _ _ _ heq2
      omega

/-- The comma separator is non-lengthening. -/
theorem sepComma_nonlen : NonLen sepComma := by
  intro l r a h
  unfold sepComma at h
  exact le_trans (le_of_lt (pchar_length_lt h)) (ms0_length_le l)

/-- Rust `parse_kwarg` is non-lengthening. -/
theorem parse_kwarg_nonlen : NonLen parse_kwarg := by
  intro l r a h
  unfold parse_kwarg at h
  split at h
  · exact absurd h (by simp)
  case h_2 l1 key heq1 =>
    split at h
    · exact absurd h (by simp)
    case h_2 l2 c2 heq2 =>
      split at h
      · exact absurd h (by simp)
      case h_2 l3 v heq3 =>
        simp only [Option.some.injEq, Prod.mk.injEq] at h
        obtain ⟨h1, _⟩ := h
        subst h1
        have e1 : l1.length ≤ l.length := parse_identifier_nonlen _ _ _ heq1
        have e2 : l2.length < (ms0 l1).length := pchar_length_lt heq2
        have e3 : l3.length ≤ (ms0 l2).length := parse_value_nonlen _ _ _ heq3
        have e4 := ms0_length_le l1
        have e5 := ms0_length_le l2
        omega

/-- Rust `parse_kwargs` is non-lengthening. -/
theorem parse_kwargs_nonlen : NonLen parse_kwargs := by
  intro l r a h
  unfold parse_kwargs at h
  split at h
  · exact absurd h (by simp)
  case h_2 l1 c1 heq1 =>
    split at h
    · exact absurd h (by simp)
    case h_2 l2 pairs heq2 =>
      split at h
      · exact absurd h (by simp)
      case h_2 l3 c3 heq3 =>
        simp only [Option.some.injEq, Prod.mk.injEq] at h
        obtain ⟨h1, _⟩ := h
        subst h1
        have e1 : l1.length < l.length := pchar_length_lt heq1
        have e2 : l2.length ≤ l1.length :=
          psepList0_nonlen sepComma_nonlen
            (fun i rr aa hh => le_trans (parse_kwarg_nonlen _ _ _ hh) (ms0_length_le i))
            _ _ _ heq2
        have e3 : l3.length < (ms0 l2).length := pchar_length_lt heq3
        have e4 := ms0_length_le l2
        omega

/-- Rust `parse_function_call` is non-lengthening. -/
theorem parse_function_call_nonlen : NonLen parse_function_call := by
  intro l r a h
  unfold parse_function_call at h
  split at h
  · exact absurd h (by simp)
  case h_2 l1 name heq1 =>
    split at h
    · exact absurd h (by simp)
    case h_2 l2 kwargs heq2 =>
      simp only [Option.some.injEq, Prod.mk.injEq] at h
      obtain ⟨h1, _⟩ := h
      subst h1
      have e1 : l1.length ≤ l.length := parse_identifier_nonlen _ _ _ heq1
      have e2 : l2.length ≤ l1.length := parse_kwargs_nonlen _ _ _ heq2
      omega

/-- Rust `parse_function_list` strictly consumes (at least the brackets). -/
theorem parse_function_list_length_lt {l r : Input} {a : List FunctionCall}
    (h : parse_function_list l = some (r, a)) : r.length < l.length := by
  unfold parse_function_list at h
  split at h
  · exact absurd h (by simp)
  case h_2 l1 c1 heq1 =>
    split at h
    · exact absurd h (by simp)
    case h_2 l2 fs heq2 =>
      split at h
      · exact absurd h (by simp)
      case h_2 l3 c3 heq3 =>
        simp only [Option.some.injEq, Prod.mk.injEq] at h
        obtain ⟨h1, _⟩ := h
        subst h1
        have e1 : l1.length < l.length := pchar_length_lt heq1
        have e2 : l2.length ≤ l1.length :=
          psepList0_nonlen sepComma_nonlen
            (fun i rr aa hh => le_trans (parse_function_call_nonlen _ _ _ hh) (ms0_length_le i))
            _ _ _ heq2
        have e3 : l3.length < (ms0 l2).length := pchar_length_lt heq3
        have e4 := ms0_length_le l2
        omega

/-- Rust `parse_python_block` strictly consumes (at least the sentinels). -/
theorem parse_python_block_length_lt {l r : Input} {a : List FunctionCall}
    (h : parse_python_block l = some (r, a)) : r.length < l.length := by
  unfold parse_python_block at h
  split at h
  · exact absurd h (by simp)
  case h_2 l1 t1 heq1 =>
    split at h
    · exact absurd h (by simp)
    case h_2 l2 fs heq2 =>
      split at h
      · exact absurd h (by simp)
      case h_2 l3 t3 heq3 =>
        simp only [Option.some.injEq, Prod.mk.injEq] at h
        obtain ⟨h1, _⟩ := h
        subst h1
        have e1 : l1.length < l.length := ptag_length_lt (by decide) heq1
        have e2 : l2.length < l1.length := parse_function_list_length_lt heq2
        have e3 : l3.length ≤ l2.length := ptag_length_le heq3
        omega

/-- The top-level parser strictly consumes whenever it succeeds. -/
theorem parse_python_nom_length_lt {l r : Input} {a : List FunctionCall}
    (h : parse_python_nom l = some (r, a)) : r.length < l.length := by
  unfold parse_python_nom palt2 at h
  split at h
  case h_1 x heq =>
    obtain ⟨r', a'⟩ := x; cases h
    exact parse_python_block_length_lt heq
  case h_2 => exact parse_function_list_length_lt h

/-- Claim C8 (confirmed): the surrounding-text scan loop terminates on
every input — each iteration either stops, advances past a successfully
parsed region (the top-level parser strictly consumes), or advances by
exactly one character past the found candidate index, so the unconsumed
text strictly shrinks and `length + 1` iterations always suffice: any two
fuel bounds above the input length yield the same result. -/
theorem scanLoopF_fuel_stable : ∀ (L : Nat) (remaining : Input)
    (acc : List FunctionCall) (n m : Nat), remaining.length = L →
    remaining.length < n → remaining.length < m →
    scanLoopF n remaining acc = scanLoopF m remaining acc := by
  intro L
  induction L using Nat.strong_induction_on with
  | _ L ih =>
    intro remaining acc n m hL hn hm
    obtain ⟨n', rfl⟩ : ∃ n', n = n' + 1 := ⟨n - 1, by omega⟩
    obtain ⟨m', rfl⟩ : ∃ m', m = m' + 1 := ⟨m - 1, by omega⟩
    simp only [scanLoopF]
    by_cases he : remaining.isEmpty
    · simp [he]
    · simp only [he, Bool.false_eq_true, if_false]
      cases hf : find_next_pattern_start remaining with
      | none => rfl
      | some start =>
        dsimp only
        cases hp : parse_python_nom (remaining.drop start) with
        | some rf =>
          obtain ⟨rest, fs⟩ := rf
          dsimp only
          have hlt : rest.length < remaining.length :=
            lt_of_lt_of_le (parse_python_nom_length_lt hp)
              ((List.drop_sublist _ _).length_le)
          exact ih rest.length (by omega) rest (acc ++ fs) n' m' rfl
            (by omega) (by omega)
        | none =>
          dsimp only
          by_cases hg : start + 1 < remaining.length
          · simp only [hg, if_true]
            have hdl : (remaining.drop (start + 1)).length < remaining.length := by
              rw [List.length_drop]
              omega
            exact ih (remaining.drop (start + 1)).length (by omega) _ acc
              n' m' rfl (by omega) (by omega)
          · simp [hg]

/-- Witness for claim C8: two different fuel bounds above the length of the
concrete input `"x[g()]y"` (length 7) give the same scan result. -/
theorem scanLoopF_fuel_stable_witness :
    (("x[g()]y".toList).length = 7 ∧ ("x[g()]y".toList).length < 8 ∧
      ("x[g()]y".toList).length < 20) ∧
    scanLoopF 8 ("x[g()]y".toList) [] = scanLoopF 20 ("x[g()]y".toList) [] :=
  ⟨⟨rfl, by decide, by decide⟩,
   scanLoopF_fuel_stable 7 ("x[g()]y".toList) [] 8 20 rfl (by decide) (by decide)⟩
